import Mathlib

/-!
# Traffic Lights solver: a shallow embedding and verification

This file embeds the core of the Traffic Lights game program
(`traffic-lights.py`): the board data model, the symmetry-canonical
fingerprint `game_hash`, the move generator `game_moves`, the memoized
negamax solver `game_value`, and the move classification loop of `move`.
The embedding is faithful to the Python source: boards are lists of 12
cell values, the cache is an association list from fingerprints to game
values, and the solver threads the cache through the recursion exactly
as the imperative code mutates its dictionary.
-/

/-- A board: an ordered sequence of cell values (the program uses
exactly 12 cells, each in `{0,1,2,3}`). -/
abbrev Board := List Nat

/-- The transposition cache: a mapping from fingerprints to game values,
modelled as an association list where the most recent binding is found
first (matching dictionary lookup in the source). -/
abbrev Cache := List (Nat × Int)

/-- Source constant `UNKNOWN = 0`. -/
def UNKNOWN : Int := 0

/-- Source constant `PREV = -1`. -/
def PREV : Int := -1

/-- Source constant `NEXT = 1`. -/
def NEXT : Int := 1

/-- Source constant `ILLEGAL = 2` (display only). -/
def ILLEGAL : Int := 2

/-- Source constant `INFINITY = 3**12`. -/
def INFINITY : Nat := 3 ^ 12

/-- The identity index permutation (first row of `INDICES` in `game_hash`). -/
def permId : List Nat := [0,1,2,3,4,5,6,7,8,9,10,11]

/-- The 180-degree rotation (second row of `INDICES`). -/
def permRot : List Nat := [11,10,9,8,7,6,5,4,3,2,1,0]

/-- The horizontal-axis reflection (third row of `INDICES`). -/
def permFlipV : List Nat := [8,9,10,11,4,5,6,7,0,1,2,3]

/-- The vertical-axis reflection (fourth row of `INDICES`). -/
def permFlipH : List Nat := [3,2,1,0,7,6,5,4,11,10,9,8]

/-- The `INDICES` table of `game_hash`: the four symmetry transforms. -/
def INDICES : List (List Nat) := [permId, permRot, permFlipV, permFlipH]

/-- Apply an index permutation to a board: position `e` of the result
holds `board[I[e]]`, as in `for e,i in enumerate(I)`. -/
def applyPerm (I : List Nat) (b : Board) : Board :=
  I.map (fun i => b.getD i 0)

/-- Pack a cell sequence into an integer, two bits per cell:
`sum(board[i] << (e*2))` reading the cells in order. -/
def pack : Board → Nat
  | [] => 0
  | x :: r => x + 4 * pack r

/-- `game_hash(board)`: the minimum over the four symmetry transforms of
the packed permuted board. -/
def game_hash (b : Board) : Nat :=
  min (pack (applyPerm permId b))
    (min (pack (applyPerm permRot b))
      (min (pack (applyPerm permFlipV b)) (pack (applyPerm permFlipH b))))

/-- The `LINES` table of `game_moves`: the 14 winning triples. -/
def LINES : List (Nat × Nat × Nat) :=
  [(0,1,2),(1,2,3),(4,5,6),(5,6,7),(8,9,10),(9,10,11),(0,4,8),
   (1,5,9),(2,6,10),(3,7,11),(0,5,10),(1,6,11),(2,5,8),(3,6,9)]

/-- One line is hit: `0 < board[x] == board[y] == board[z]`. -/
def lineHit (b : Board) (t : Nat × Nat × Nat) : Prop :=
  0 < b.getD t.1 0 ∧ b.getD t.1 0 = b.getD t.2.1 0 ∧
    b.getD t.2.1 0 = b.getD t.2.2 0

instance (b : Board) (t : Nat × Nat × Nat) : Decidable (lineHit b t) := by
  unfold lineHit; infer_instance

/-- The terminal test of `game_moves`:
`any(0 < board[x] == board[y] == board[z] for x,y,z in LINES)`. -/
def isTerminal (b : Board) : Prop := ∃ t ∈ LINES, lineHit b t

instance (b : Board) : Decidable (isTerminal b) :=
  List.decidableBEx _ LINES

/-- The successor board that increments cell `i`:
`tuple(b+1 if i==j else b for j,b in enumerate(board))`. -/
def bump (i : Nat) (b : Board) : Board :=
  b.mapIdx (fun j v => if i = j then v + 1 else v)

/-- `game_moves(board)`: the empty list when the game is over, otherwise
one incremented successor for each cell of value `< 3`, in increasing
cell-index order. -/
def game_moves (b : Board) : List Board :=
  if isTerminal b then []
  else (List.range 12).filterMap
    (fun i => if b.getD i 0 < 3 then some (bump i b) else none)

/-- The inner loop of `game_value`: starting from the running `value`,
fold over the moves, maximizing with the negated child value, breaking
as soon as the value reaches `NEXT`. The child evaluator `f` threads the
cache. -/
def game_loop (f : Board → Cache → Int × Cache) :
    List Board → Int → Cache → Int × Cache
  | [], value, cache => (value, cache)
  | m :: ms, value, cache =>
    let p := f m cache
    let value' := max value (-p.1)
    if value' = NEXT then (value', p.2) else game_loop f ms value' p.2

/-- `game_value(board, depth, cache)`: the memoized negamax solver.
Returns the value together with the updated cache (the Python code
mutates the dictionary in place). -/
def game_value (b : Board) (depth : Nat) (cache : Cache) : Int × Cache :=
  match cache.lookup (game_hash b) with
  | some v => (v, cache)
  | none =>
    let moves := game_moves b
    if moves = [] then (PREV, (game_hash b, PREV) :: cache)
    else
      match depth with
      | 0 => (UNKNOWN, cache)
      | d + 1 =>
        let p := game_loop (fun m c => game_value m d c) moves PREV cache
        if p.1 = UNKNOWN then p else (p.1, (game_hash b, p.1) :: p.2)

/-- The all-empty starting board (`BOARD = tuple(0 for _ in range(12))`,
`board = [0]*12`). -/
def empty_board : Board := List.replicate 12 0

/-- A valid board: exactly 12 cells, each of value at most 3. -/
def Valid (b : Board) : Prop := b.length = 12 ∧ ∀ x ∈ b, x ≤ 3

instance (b : Board) : Decidable (Valid b) := by
  unfold Valid; infer_instance

/-- The classification loop of `move`: for each legal move compute its
value with the AI's depth and cache, record the value, and append the
move to the winning / unknown / losing bucket according to whether the
value is `PREV`, neither, or `NEXT`. Returns the recorded values, the
three buckets `W`, `U`, `L`, and the final cache. -/
def move_classify (d : Nat) :
    List Board → Cache →
      List (Board × Int) × List Board × List Board × List Board × Cache
  | [], c => ([], [], [], [], c)
  | m :: ms, c =>
    let p := game_value m d c
    let r := move_classify d ms p.2
    if p.1 = PREV then
      ((m, p.1) :: r.1, m :: r.2.1, r.2.2.1, r.2.2.2.1, r.2.2.2.2)
    else if p.1 = NEXT then
      ((m, p.1) :: r.1, r.2.1, r.2.2.1, m :: r.2.2.2.1, r.2.2.2.2)
    else
      ((m, p.1) :: r.1, r.2.1, m :: r.2.2.1, r.2.2.2.1, r.2.2.2.2)

/-- The contiguous length-3 windows inside each row of the 3x4 grid:
two windows for each of the three rows. -/
def rowWindowTriples : List (Nat × Nat × Nat) :=
  (List.range 12).filterMap (fun i => if i % 4 < 2 then some (i, i+1, i+2) else none)

/-- The four columns of the 3x4 grid. -/
def columnTriples : List (Nat × Nat × Nat) :=
  (List.range 4).map (fun j => (j, j + 4, j + 8))

/-- The four diagonal length-3 lines of the 3x4 grid, two in each
direction, each passing through all three rows. -/
def diagTriples : List (Nat × Nat × Nat) :=
  (List.range 2).map (fun j => (j, j + 5, j + 10)) ++
    (List.range 2).map (fun j => (j + 2, j + 5, j + 8))

/-- The sum of all cell values of a board. -/
def cellSum (b : Board) : Nat := b.sum

/-- The budget-free reference value of a position: negamax with enough
fuel that the answer no longer depends on the fuel.  `solve_spec f b` is
`PREV` on a terminal board, `UNKNOWN` when the fuel runs out, and
otherwise the maximum over all incrementable cells of the negated value
of the corresponding successor. -/
def solve_spec : Nat → Board → Int
  | 0, b => if isTerminal b then PREV else UNKNOWN
  | f + 1, b =>
    if isTerminal b then PREV
    else (List.range 12).foldr
      (fun i acc => if b.getD i 0 < 3 then
        max (-(solve_spec f (bump i b))) acc else acc) PREV

/-- The exact game value of a valid board: 36 plies of fuel always
suffice because each move increases the cell sum, which is capped
at 36. -/
def trueVal (b : Board) : Int := solve_spec 36 b

/-- Generic fold computing the maximum of `init` and of `g` over a
list: the shape of the negamax accumulation. -/
def negmaxFold {α : Type} (g : α → Int) (l : List α) (init : Int) : Int :=
  l.foldr (fun m acc => max (g m) acc) init

/-- A cache whose every entry stores a resolved (`PREV`/`NEXT`) value
that agrees with the exact game value of every valid board carrying
that fingerprint. -/
def goodCache (c : Cache) : Prop :=
  ∀ h v, (h, v) ∈ c → (v = PREV ∨ v = NEXT) ∧
    ∀ b, Valid b → game_hash b = h → trueVal b = v

/-- A cache whose every entry stores `PREV` or `NEXT`. -/
def cacheRange (c : Cache) : Prop := ∀ h v, (h, v) ∈ c → v = PREV ∨ v = NEXT

/-- Caches reachable from the empty cache by a sequence of solver calls
at a fixed depth budget `d` on valid boards. -/
inductive PopulatedAt (d : Nat) : Cache → Prop where
  | empty : PopulatedAt d []
  | step (b : Board) (c : Cache) : Valid b → PopulatedAt d c →
      PopulatedAt d (game_value b d c).2

/-- Soundness of the solver at depth `d`: on a valid board and a good
cache, the result cache is good and any resolved result equals the
exact game value. -/
def GVP (d : Nat) : Prop := ∀ (b : Board) (c : Cache), Valid b →
  goodCache c →
  goodCache (game_value b d c).2 ∧
  ((game_value b d c).1 ≠ UNKNOWN → (game_value b d c).1 = trueVal b)

/-- The unordered variants of an index triple. -/
def tripleSet (t : Nat × Nat × Nat) : List (Nat × Nat × Nat) :=
  [(t.1,t.2.1,t.2.2),(t.1,t.2.2,t.2.1),(t.2.1,t.1,t.2.2),
   (t.2.1,t.2.2,t.1),(t.2.2,t.1,t.2.1),(t.2.2,t.2.1,t.1)]

/-- The image of an index triple under an index permutation. -/
def mapTriple (T : List Nat) (t : Nat × Nat × Nat) : Nat × Nat × Nat :=
  (T.getD t.1 0, T.getD t.2.1 0, T.getD t.2.2 0)

/-- A cache that stores no `UNKNOWN` value. -/
def noUnknownCache (c : Cache) : Prop := ∀ h v, (h, v) ∈ c → v ≠ UNKNOWN

theorem gl_noUnknown (f : Board → Cache → Int × Cache)
    (hf : ∀ m c, noUnknownCache c → noUnknownCache (f m c).2) :
    ∀ (ms : List Board) (value : Int) (c : Cache), noUnknownCache c →
      noUnknownCache (game_loop f ms value c).2 := by
  intro ms
  induction ms with
  | nil => intro value c hc; exact hc
  | cons m ms ih =>
    intro value c hc
    simp only [game_loop]
    split
    · exact hf m c hc
    · exact ih _ _ (hf m c hc)

theorem gv_noUnknown : ∀ (d : Nat) (b : Board) (c : Cache), noUnknownCache c →
    noUnknownCache (game_value b d c).2 := by
  intro d
  induction d with
  | zero =>
    intro b c hc
    unfold game_value
    rcases hl : c.lookup (game_hash b) with _ | v
    · simp only []
      split
      · intro h v hmem
        rcases List.mem_cons.1 hmem with h1 | h1
        · simp at h1; simp [h1.2]; decide
        · exact hc h v h1
      · exact hc
    · exact hc
  | succ d ih =>
    intro b c hc
    unfold game_value
    rcases hl : c.lookup (game_hash b) with _ | v
    · simp only []
      split
      · intro h v hmem
        rcases List.mem_cons.1 hmem with h1 | h1
        · simp at h1; simp [h1.2]; decide
        · exact hc h v h1
      · have hloop := gl_noUnknown (fun m c => game_value m d c)
          (fun m c hc => ih m c hc) (game_moves b) PREV c hc
        split
        · exact hloop
        · rename_i hne
          intro h v hmem
          rcases List.mem_cons.1 hmem with h1 | h1
          · rw [Prod.mk.injEq] at h1
            rw [h1.2]
            exact hne
          · exact hloop h v h1
    · exact hc

/-- C5: a cache hit takes precedence over the depth budget and leaves
the cache unchanged: whenever the cache already holds a value for the
board's fingerprint, `game_value` returns exactly that value, for every
depth budget (including 0), with the cache identical to its prior
state. -/
theorem cache_hit_precedence (b : Board) (d : Nat) (c : Cache) (v : Int)
    (h : c.lookup (game_hash b) = some v) : game_value b d c = (v, c) := by
  unfold game_value
  rw [h]

theorem cache_hit_precedence_witness :
    (([(game_hash empty_board, NEXT)] : Cache).lookup (game_hash empty_board)
      = some NEXT) ∧
    game_value empty_board 0 [(game_hash empty_board, NEXT)]
      = (NEXT, [(game_hash empty_board, NEXT)]) :=
  ⟨by decide,
    cache_hit_precedence empty_board 0 [(game_hash empty_board, NEXT)] NEXT
      (by decide)⟩

/-- C3: `UNKNOWN` is never cached: a call to `game_value` on a cache
holding no `UNKNOWN` value leaves a cache holding no `UNKNOWN` value;
moreover `game_value(empty_board, 1, {})` returns `UNKNOWN` while the
cache afterwards stores no `UNKNOWN` entry. -/
theorem unknown_never_cached :
    (∀ (b : Board) (d : Nat) (c : Cache), noUnknownCache c →
      noUnknownCache (game_value b d c).2) ∧
    (game_value empty_board 1 []).1 = UNKNOWN ∧
    noUnknownCache (game_value empty_board 1 []).2 :=
  ⟨fun b d c hc => gv_noUnknown d b c hc,
   by decide,
   by
    intro h v hm
    rw [show (game_value empty_board 1 []).2 = [] from by decide] at hm
    simp at hm⟩

theorem unknown_never_cached_witness :
    noUnknownCache [(5, NEXT)] ∧
    noUnknownCache (game_value empty_board 0 [(5, NEXT)]).2 :=
  have h : noUnknownCache [(5, NEXT)] := by
    intro h v hm
    simp at hm
    rw [hm.2]
    decide
  ⟨h, unknown_never_cached.1 empty_board 0 [(5, NEXT)] h⟩

/-- C9 counterexample: the fixed line set does have 14 triples, but its
composition is not the claimed one: a row of four cells has only two
length-3 windows (6 row lines in total, not 9), and after removing row
windows and columns there remain 4 diagonal lines, not 2. -/
theorem lines_claim_counterexample :
    LINES.length = 14 ∧
    rowWindowTriples.length = 6 ∧
    ¬ rowWindowTriples.length = 3 * 3 ∧
    (LINES.filter
      (fun t => decide (t ∉ rowWindowTriples ∧ t ∉ columnTriples))).length = 4 ∧
    ¬ (LINES.filter
      (fun t => decide (t ∉ rowWindowTriples ∧ t ∉ columnTriples))).length = 2 := by
  decide

/-- C9 amended: the 14 fixed winning triples are exactly the two
length-3 windows of each of the 3 rows, the 4 columns, and the 4
length-3 diagonals (two in each direction), each diagonal passing
through all three rows. -/
theorem lines_composition :
    LINES = rowWindowTriples ++ columnTriples ++ diagTriples ∧
    LINES.length = 14 := by
  decide

theorem mem_of_lookup {c : Cache} {k : Nat} {v : Int}
    (h : c.lookup k = some v) : (k, v) ∈ c := by
  obtain ⟨l1, l2, rfl, -⟩ := List.lookup_eq_some_iff.1 h
  simp

theorem board12 (b : Board) (h : b.length = 12) :
    ∃ x0 x1 x2 x3 x4 x5 x6 x7 x8 x9 x10 x11 : Nat,
      b = [x0,x1,x2,x3,x4,x5,x6,x7,x8,x9,x10,x11] := by
  rcases b with _ | ⟨x0, b⟩
  · simp at h
  rcases b with _ | ⟨x1, b⟩
  · simp at h
  rcases b with _ | ⟨x2, b⟩
  · simp at h
  rcases b with _ | ⟨x3, b⟩
  · simp at h
  rcases b with _ | ⟨x4, b⟩
  · simp at h
  rcases b with _ | ⟨x5, b⟩
  · simp at h
  rcases b with _ | ⟨x6, b⟩
  · simp at h
  rcases b with _ | ⟨x7, b⟩
  · simp at h
  rcases b with _ | ⟨x8, b⟩
  · simp at h
  rcases b with _ | ⟨x9, b⟩
  · simp at h
  rcases b with _ | ⟨x10, b⟩
  · simp at h
  rcases b with _ | ⟨x11, b⟩
  · simp at h
  rcases b with _ | ⟨x12, b⟩
  · exact ⟨x0,x1,x2,x3,x4,x5,x6,x7,x8,x9,x10,x11, rfl⟩
  · simp only [List.length_cons] at h
    omega

theorem getD_map_lt (g : Nat → Nat) (J : List Nat) (i : Nat) (h : i < J.length) :
    (J.map g).getD i 0 = g (J.getD i 0) := by
  rw [List.getD_eq_getElem?_getD, List.getD_eq_getElem?_getD, List.getElem?_map,
    List.getElem?_eq_getElem h]
  simp

theorem applyPerm_length (I : List Nat) (b : Board) :
    (applyPerm I b).length = I.length := by
  simp [applyPerm]

theorem applyPerm_applyPerm (I J : List Nat) (b : Board)
    (h : ∀ i ∈ I, i < J.length) :
    applyPerm I (applyPerm J b) =
      applyPerm (I.map (fun i => J.getD i 0)) b := by
  unfold applyPerm
  rw [List.map_map]
  apply List.map_congr_left
  intro i hi
  exact getD_map_lt _ J i (h i hi)

theorem applyPerm_permId (b : Board) (h : b.length = 12) :
    applyPerm permId b = b := by
  obtain ⟨x0,x1,x2,x3,x4,x5,x6,x7,x8,x9,x10,x11, rfl⟩ := board12 b h
  rfl

theorem perm_mem_lt : ∀ I ∈ INDICES, ∀ i ∈ I, i < 12 := by decide

theorem perm_len : ∀ I ∈ INDICES, I.length = 12 := by decide

theorem perm_comp_closed : ∀ I ∈ INDICES, ∀ J ∈ INDICES,
    (I.map (fun i => J.getD i 0)) ∈ INDICES := by decide

theorem perm_self_comp : ∀ J ∈ INDICES,
    J.map (fun i => J.getD i 0) = permId := by decide

theorem pack_injective (b1 b2 : Board) (v1 : Valid b1) (v2 : Valid b2)
    (h : pack b1 = pack b2) : b1 = b2 := by
  obtain ⟨x0,x1,x2,x3,x4,x5,x6,x7,x8,x9,x10,x11, rfl⟩ := board12 b1 v1.1
  obtain ⟨y0,y1,y2,y3,y4,y5,y6,y7,y8,y9,y10,y11, rfl⟩ := board12 b2 v2.1
  have hv1 := v1.2
  have hv2 := v2.2
  simp only [List.mem_cons, List.not_mem_nil, or_false, forall_eq_or_imp,
    forall_eq] at hv1 hv2
  simp only [pack] at h
  simp only [List.cons.injEq, and_true]
  omega

theorem applyPerm_valid (I : List Nat) (hI : I ∈ INDICES) (b : Board)
    (hb : Valid b) : Valid (applyPerm I b) := by
  constructor
  · rw [applyPerm_length]
    exact perm_len I hI
  · intro x hx
    simp only [applyPerm, List.mem_map] at hx
    obtain ⟨i, -, rfl⟩ := hx
    by_cases hlt : i < b.length
    · rw [List.getD_eq_getElem?_getD, List.getElem?_eq_getElem hlt]
      exact hb.2 _ (List.getElem_mem hlt)
    · rw [List.getD_eq_getElem?_getD, List.getElem?_eq_none (by omega)]
      simp

theorem game_hash_exists (b : Board) :
    ∃ I ∈ INDICES, game_hash b = pack (applyPerm I b) := by
  unfold game_hash
  rcases min_choice (pack (applyPerm permId b))
      (min (pack (applyPerm permRot b))
        (min (pack (applyPerm permFlipV b)) (pack (applyPerm permFlipH b)))) with
    h | h
  · exact ⟨permId, by decide, h⟩
  rw [h]
  rcases min_choice (pack (applyPerm permRot b))
      (min (pack (applyPerm permFlipV b)) (pack (applyPerm permFlipH b))) with
    h2 | h2
  · exact ⟨permRot, by decide, h2⟩
  rw [h2]
  rcases min_choice (pack (applyPerm permFlipV b)) (pack (applyPerm permFlipH b)) with
    h3 | h3
  · exact ⟨permFlipV, by decide, h3⟩
  · exact ⟨permFlipH, by decide, h3⟩

/-- C4: the canonical fingerprint is invariant under each of the four
symmetry transforms: for every valid board `b` and every transform `T`
of the `INDICES` table, `game_hash (applyPerm T b) = game_hash b`. -/
theorem hash_symmetry (b : Board) (hb : Valid b) :
    ∀ T ∈ INDICES, game_hash (applyPerm T b) = game_hash b := by
  intro T hT
  simp only [INDICES, List.mem_cons, List.not_mem_nil, or_false] at hT
  rcases hT with rfl | rfl | rfl | rfl
  · rw [applyPerm_permId b hb.1]
  · unfold game_hash
    rw [applyPerm_applyPerm permId permRot b (by decide),
      applyPerm_applyPerm permRot permRot b (by decide),
      applyPerm_applyPerm permFlipV permRot b (by decide),
      applyPerm_applyPerm permFlipH permRot b (by decide),
      show permId.map (fun i => permRot.getD i 0) = permRot by decide,
      show permRot.map (fun i => permRot.getD i 0) = permId by decide,
      show permFlipV.map (fun i => permRot.getD i 0) = permFlipH by decide,
      show permFlipH.map (fun i => permRot.getD i 0) = permFlipV by decide,
      applyPerm_permId b hb.1]
    omega
  · unfold game_hash
    rw [applyPerm_applyPerm permId permFlipV b (by decide),
      applyPerm_applyPerm permRot permFlipV b (by decide),
      applyPerm_applyPerm permFlipV permFlipV b (by decide),
      applyPerm_applyPerm permFlipH permFlipV b (by decide),
      show permId.map (fun i => permFlipV.getD i 0) = permFlipV by decide,
      show permRot.map (fun i => permFlipV.getD i 0) = permFlipH by decide,
      show permFlipV.map (fun i => permFlipV.getD i 0) = permId by decide,
      show permFlipH.map (fun i => permFlipV.getD i 0) = permRot by decide,
      applyPerm_permId b hb.1]
    omega
  · unfold game_hash
    rw [applyPerm_applyPerm permId permFlipH b (by decide),
      applyPerm_applyPerm permRot permFlipH b (by decide),
      applyPerm_applyPerm permFlipV permFlipH b (by decide),
      applyPerm_applyPerm permFlipH permFlipH b (by decide),
      show permId.map (fun i => permFlipH.getD i 0) = permFlipH by decide,
      show permRot.map (fun i => permFlipH.getD i 0) = permFlipV by decide,
      show permFlipV.map (fun i => permFlipH.getD i 0) = permRot by decide,
      show permFlipH.map (fun i => permFlipH.getD i 0) = permId by decide,
      applyPerm_permId b hb.1]
    omega

theorem hash_symmetry_witness :
    Valid [1,0,2,0,0,0,0,3,0,0,0,0] ∧ permRot ∈ INDICES ∧
    game_hash (applyPerm permRot [1,0,2,0,0,0,0,3,0,0,0,0]) =
      game_hash [1,0,2,0,0,0,0,3,0,0,0,0] :=
  ⟨by decide, by decide,
    hash_symmetry [1,0,2,0,0,0,0,3,0,0,0,0] (by decide) permRot (by decide)⟩

theorem hash_collision_symmetric_core (b1 b2 : Board) (v1 : Valid b1)
    (v2 : Valid b2) (h : game_hash b1 = game_hash b2) :
    ∃ T ∈ INDICES, b2 = applyPerm T b1 := by
  obtain ⟨I, hI, eI⟩ := game_hash_exists b1
  obtain ⟨J, hJ, eJ⟩ := game_hash_exists b2
  have hpack : pack (applyPerm I b1) = pack (applyPerm J b2) := by
    rw [← eI, ← eJ, h]
  have hperm : applyPerm I b1 = applyPerm J b2 :=
    pack_injective _ _ (applyPerm_valid I hI b1 v1) (applyPerm_valid J hJ b2 v2)
      hpack
  have hJJ : applyPerm J (applyPerm J b2) = b2 := by
    rw [applyPerm_applyPerm J J b2
        (fun i hi => (perm_len J hJ) ▸ perm_mem_lt J hJ i hi),
      perm_self_comp J hJ, applyPerm_permId b2 v2.1]
  refine ⟨J.map (fun i => I.getD i 0), perm_comp_closed J hJ I hI, ?_⟩
  rw [← applyPerm_applyPerm J I b1
      (fun i hi => (perm_len I hI) ▸ perm_mem_lt J hJ i hi),
    hperm, hJJ]

/-- C10: fingerprints collide only for symmetric boards: two valid
boards with the same `game_hash` are related by one of the four
symmetry transforms. -/
theorem hash_collision_symmetric (b1 b2 : Board) (v1 : Valid b1)
    (v2 : Valid b2) (h : game_hash b1 = game_hash b2) :
    ∃ T ∈ INDICES, b2 = applyPerm T b1 :=
  hash_collision_symmetric_core b1 b2 v1 v2 h

theorem hash_collision_symmetric_witness :
    Valid [1,0,0,0,0,0,0,0,0,0,0,0] ∧ Valid [0,0,0,0,0,0,0,0,0,0,0,1] ∧
    game_hash [1,0,0,0,0,0,0,0,0,0,0,0] = game_hash [0,0,0,0,0,0,0,0,0,0,0,1] ∧
    ∃ T ∈ INDICES,
      [0,0,0,0,0,0,0,0,0,0,0,1] = applyPerm T [1,0,0,0,0,0,0,0,0,0,0,0] :=
  ⟨by decide, by decide, by decide,
    hash_collision_symmetric [1,0,0,0,0,0,0,0,0,0,0,0]
      [0,0,0,0,0,0,0,0,0,0,0,1] (by decide) (by decide) (by decide)⟩

theorem bump_length (i : Nat) (b : Board) : (bump i b).length = b.length := by
  simp [bump]

theorem bump_getD (i j : Nat) (b : Board) (hj : j < b.length) :
    (bump i b).getD j 0 = if i = j then b.getD j 0 + 1 else b.getD j 0 := by
  rw [List.getD_eq_getElem?_getD, List.getD_eq_getElem?_getD,
    List.getElem?_eq_getElem hj,
    List.getElem?_eq_getElem (by rw [bump_length]; exact hj)]
  simp [bump]

theorem terminal_of_all_three (b : Board) (h0 : b.getD 0 0 = 3)
    (h1 : b.getD 1 0 = 3) (h2 : b.getD 2 0 = 3) : isTerminal b := by
  refine ⟨(0,1,2), by simp [LINES], ?_⟩
  unfold lineHit
  simp only []
  rw [h0, h1, h2]
  omega

theorem filterMap_guard_eq_map_filter (l : List Nat) (c : Nat → Prop)
    [DecidablePred c] (g : Nat → Board) :
    l.filterMap (fun i => if c i then some (g i) else none) =
      (l.filter (fun i => decide (c i))).map g := by
  induction l with
  | nil => rfl
  | cons a l ih =>
    rw [List.filterMap_cons, List.filter_cons]
    by_cases hc : c a
    · rw [if_pos hc, if_pos (by simp [hc] : decide (c a) = true), List.map_cons,
        ih]
    · rw [if_neg hc, if_neg (by simp [hc] : ¬ decide (c a) = true), ih]

theorem countP_getD (l : List Nat) (p : Nat → Bool) :
    (List.range l.length).countP (fun i => p (l.getD i 0)) = l.countP p := by
  induction l with
  | nil => simp
  | cons a l ih =>
    rw [List.length_cons, List.range_succ_eq_map, List.countP_cons,
      List.countP_map, List.countP_cons]
    have : ((fun i => p ((a :: l).getD i 0)) ∘ Nat.succ) =
        fun i => p (l.getD i 0) := by
      funext i
      simp [List.getD_cons_succ, Function.comp]
    rw [this, ih]
    simp [List.getD_cons_zero]

theorem moves_nonterminal (b : Board) (h : ¬ isTerminal b) :
    game_moves b =
      ((List.range 12).filter (fun i => decide (b.getD i 0 < 3))).map
        (fun i => bump i b) := by
  unfold game_moves
  rw [if_neg h]
  exact filterMap_guard_eq_map_filter _ _ _

theorem moves_nil_iff (b : Board) (hb : Valid b) :
    game_moves b = [] ↔ isTerminal b := by
  constructor
  · intro h
    by_contra hterm
    rw [moves_nonterminal b hterm] at h
    simp only [List.map_eq_nil_iff, List.filter_eq_nil_iff, List.mem_range,
      decide_eq_true_eq] at h
    have hall : ∀ i, i < 12 → b.getD i 0 = 3 := by
      intro i hi
      have hle : b.getD i 0 ≤ 3 := by
        have hlen : i < b.length := by rw [hb.1]; exact hi
        rw [List.getD_eq_getElem?_getD, List.getElem?_eq_getElem hlen]
        exact hb.2 _ (List.getElem_mem hlen)
      have := h i hi
      omega
    exact hterm
      (terminal_of_all_three b (hall 0 (by omega)) (hall 1 (by omega))
        (hall 2 (by omega)))
  · intro h
    unfold game_moves
    rw [if_pos h]

/-- C2: complete characterization of the move generator on valid
boards: `game_moves` is empty exactly when some fixed line has three
equal nonzero cells; on a non-terminal board it returns, in increasing
cell-index order, one successor for each cell of value below 3, each
successor being the board with exactly that cell incremented; the
number of successors is the count of cells of value below 3. -/
theorem moves_characterization (b : Board) (hb : Valid b) :
    (game_moves b = [] ↔ ∃ t ∈ LINES, lineHit b t) ∧
    (¬ (∃ t ∈ LINES, lineHit b t) →
      game_moves b =
        ((List.range 12).filter (fun i => decide (b.getD i 0 < 3))).map
          (fun i => bump i b)) ∧
    (∀ i, i < 12 → (bump i b).length = 12 ∧ ∀ j, j < 12 →
      (bump i b).getD j 0 =
        if j = i then b.getD j 0 + 1 else b.getD j 0) ∧
    (¬ (∃ t ∈ LINES, lineHit b t) →
      (game_moves b).length = b.countP (fun x => decide (x < 3))) := by
  refine ⟨moves_nil_iff b hb, fun h => moves_nonterminal b h, ?_, fun h => ?_⟩
  · intro i hi
    refine ⟨by rw [bump_length, hb.1], fun j hj => ?_⟩
    rw [bump_getD i j b (by rw [hb.1]; exact hj)]
    by_cases hij : i = j
    · rw [if_pos hij, if_pos hij.symm]
    · rw [if_neg hij, if_neg (fun hji => hij hji.symm)]
  · rw [moves_nonterminal b h, List.length_map, ← List.countP_eq_length_filter,
      ← hb.1]
    exact countP_getD b (fun x => decide (x < 3))

theorem moves_characterization_witness :
    Valid [0,1,2,3,3,3,0,0,0,0,0,2] ∧
    ((game_moves [0,1,2,3,3,3,0,0,0,0,0,2] = [] ↔
      ∃ t ∈ LINES, lineHit [0,1,2,3,3,3,0,0,0,0,0,2] t) ∧
    (¬ (∃ t ∈ LINES, lineHit [0,1,2,3,3,3,0,0,0,0,0,2] t) →
      game_moves [0,1,2,3,3,3,0,0,0,0,0,2] =
        ((List.range 12).filter
          (fun i => decide ([0,1,2,3,3,3,0,0,0,0,0,2].getD i 0 < 3))).map
          (fun i => bump i [0,1,2,3,3,3,0,0,0,0,0,2])) ∧
    (∀ i, i < 12 → (bump i [0,1,2,3,3,3,0,0,0,0,0,2]).length = 12 ∧
      ∀ j, j < 12 → (bump i [0,1,2,3,3,3,0,0,0,0,0,2]).getD j 0 =
        if j = i then [0,1,2,3,3,3,0,0,0,0,0,2].getD j 0 + 1
        else [0,1,2,3,3,3,0,0,0,0,0,2].getD j 0) ∧
    (¬ (∃ t ∈ LINES, lineHit [0,1,2,3,3,3,0,0,0,0,0,2] t) →
      (game_moves [0,1,2,3,3,3,0,0,0,0,0,2]).length =
        [0,1,2,3,3,3,0,0,0,0,0,2].countP (fun x => decide (x < 3)))) :=
  ⟨by decide, moves_characterization [0,1,2,3,3,3,0,0,0,0,0,2] (by decide)⟩

theorem getD_eq_getElem_of_lt (l : List Nat) (i : Nat) (h : i < l.length) :
    l.getD i 0 = l[i] := by
  rw [List.getD_eq_getElem?_getD, List.getElem?_eq_getElem h, Option.getD_some]

theorem mapIdx_id_nat : ∀ (l : List Nat), l.mapIdx (fun _ v => v) = l := by
  intro l
  induction l with
  | nil => rfl
  | cons a l ih =>
    rw [List.mapIdx_cons]
    exact congrArg (a :: ·) ih

theorem bump_sum : ∀ (b : Board) (i : Nat), i < b.length →
    (bump i b).sum = b.sum + 1 := by
  intro b
  induction b with
  | nil => intro i hi; simp at hi
  | cons a l ih =>
    intro i hi
    unfold bump
    rw [List.mapIdx_cons]
    match i with
    | 0 =>
      have he : (fun j v => if (0 : Nat) = j + 1 then v + 1 else v) =
          fun (_ : Nat) (v : Nat) => v := by
        funext j v
        simp
      rw [if_pos rfl, he, mapIdx_id_nat, List.sum_cons, List.sum_cons]
      omega
    | k + 1 =>
      have he : (fun j v => if k + 1 = j + 1 then v + 1 else v) =
          fun (j : Nat) (v : Nat) => if k = j then v + 1 else v := by
        funext j v
        simp
      rw [if_neg (by omega), he]
      have hk : k < l.length := by
        rw [List.length_cons] at hi
        omega
      have := ih k hk
      unfold bump at this
      rw [List.sum_cons, this, List.sum_cons]
      omega

theorem bump_valid (b : Board) (i : Nat) (hb : Valid b) (hi : i < 12)
    (hcell : b.getD i 0 < 3) : Valid (bump i b) := by
  refine ⟨by rw [bump_length, hb.1], ?_⟩
  intro x hx
  rw [List.mem_iff_getElem] at hx
  obtain ⟨j, hj, hval⟩ := hx
  unfold bump at hj hval
  rw [List.getElem_mapIdx] at hval
  have hjb : j < b.length := by
    rw [List.length_mapIdx] at hj
    exact hj
  by_cases hij : i = j
  · rw [if_pos hij] at hval
    subst hij
    rw [getD_eq_getElem_of_lt b i hjb] at hcell
    omega
  · rw [if_neg hij] at hval
    rw [← hval]
    exact hb.2 _ (List.getElem_mem hjb)

theorem mem_game_moves {b m : Board} (hm : m ∈ game_moves b) :
    ¬ isTerminal b ∧ ∃ i, i < 12 ∧ b.getD i 0 < 3 ∧ m = bump i b := by
  unfold game_moves at hm
  split at hm
  · simp at hm
  · rename_i hterm
    refine ⟨hterm, ?_⟩
    simp only [List.mem_filterMap, List.mem_range] at hm
    obtain ⟨i, hi, hf⟩ := hm
    split at hf
    · exact ⟨i, hi, by assumption, (Option.some_inj.1 hf).symm⟩
    · simp at hf

theorem moves_sum_valid {b m : Board} (hb : Valid b) (hm : m ∈ game_moves b) :
    cellSum m = cellSum b + 1 ∧ Valid m := by
  obtain ⟨-, i, hi, hcell, rfl⟩ := mem_game_moves hm
  refine ⟨?_, bump_valid b i hb hi hcell⟩
  unfold cellSum
  exact bump_sum b i (by rw [hb.1]; exact hi)

theorem cellSum_le (b : Board) (hb : Valid b) : cellSum b ≤ 36 := by
  have := List.sum_le_card_nsmul b 3 hb.2
  rw [hb.1] at this
  simpa using this

theorem terminal_of_sum36 (b : Board) (hb : Valid b) (hs : cellSum b = 36) :
    isTerminal b := by
  obtain ⟨x0,x1,x2,x3,x4,x5,x6,x7,x8,x9,x10,x11, rfl⟩ := board12 b hb.1
  have hv := hb.2
  simp only [List.mem_cons, List.not_mem_nil, or_false, forall_eq_or_imp,
    forall_eq] at hv
  simp only [cellSum, List.sum_cons, List.sum_nil] at hs
  refine terminal_of_all_three _ ?_ ?_ ?_
  · show x0 = 3
    omega
  · show x1 = 3
    omega
  · show x2 = 3
    omega

theorem negmaxFold_nil {α : Type} (g : α → Int) (init : Int) :
    negmaxFold g [] init = init := rfl

theorem negmaxFold_cons {α : Type} (g : α → Int) (m : α) (ms : List α)
    (init : Int) :
    negmaxFold g (m :: ms) init = max (g m) (negmaxFold g ms init) := rfl

theorem negmaxFold_ge_init {α : Type} (g : α → Int) (l : List α) (init : Int) :
    init ≤ negmaxFold g l init := by
  induction l with
  | nil => exact le_refl init
  | cons m ms ih => exact le_trans ih (le_max_right _ _)

theorem negmaxFold_ge_mem {α : Type} (g : α → Int) {l : List α} {m : α}
    (hm : m ∈ l) (init : Int) : g m ≤ negmaxFold g l init := by
  induction l with
  | nil => simp at hm
  | cons a ms ih =>
    rcases List.mem_cons.1 hm with rfl | hm2
    · exact le_max_left _ _
    · exact le_trans (ih hm2) (le_max_right _ _)

theorem negmaxFold_le {α : Type} (g : α → Int) (l : List α) (init a : Int)
    (h0 : init ≤ a) (h : ∀ m ∈ l, g m ≤ a) : negmaxFold g l init ≤ a := by
  induction l with
  | nil => exact h0
  | cons m ms ih =>
    rw [negmaxFold_cons]
    exact max_le (h m (by simp)) (ih (fun x hx => h x (by simp [hx])))

theorem negmaxFold_cases {α : Type} (g : α → Int) (l : List α) (init : Int) :
    negmaxFold g l init = init ∨ ∃ m ∈ l, negmaxFold g l init = g m := by
  induction l with
  | nil => exact Or.inl rfl
  | cons m ms ih =>
    rw [negmaxFold_cons]
    rcases max_choice (g m) (negmaxFold g ms init) with h | h
    · exact Or.inr ⟨m, by simp, h⟩
    · rcases ih with h2 | ⟨m2, hm2, h2⟩
      · exact Or.inl (by rw [h, h2])
      · exact Or.inr ⟨m2, by simp [hm2], by rw [h, h2]⟩

theorem negmaxFold_init_max {α : Type} (g : α → Int) (l : List α) (a c : Int) :
    negmaxFold g l (max a c) = max a (negmaxFold g l c) := by
  induction l with
  | nil => rfl
  | cons m ms ih =>
    rw [negmaxFold_cons, negmaxFold_cons, ih, max_left_comm]

theorem negmaxFold_congr {α : Type} (g1 g2 : α → Int) (l : List α)
    (init : Int) (h : ∀ m ∈ l, g1 m = g2 m) :
    negmaxFold g1 l init = negmaxFold g2 l init := by
  induction l with
  | nil => rfl
  | cons m ms ih =>
    rw [negmaxFold_cons, negmaxFold_cons, h m (by simp),
      ih (fun x hx => h x (by simp [hx]))]

theorem negmaxFold_perm {α : Type} (g : α → Int) {l1 l2 : List α}
    (h : l1.Perm l2) (init : Int) :
    negmaxFold g l1 init = negmaxFold g l2 init := by
  unfold negmaxFold
  exact @List.Perm.foldr_eq _ _ (fun m acc => max (g m) acc) l1 l2
    ⟨fun a b c => max_left_comm (g a) (g b) c⟩ h init

theorem negmaxFold_map {α β : Type} (g : β → Int) (f : α → β) (l : List α)
    (init : Int) :
    negmaxFold g (l.map f) init = negmaxFold (fun a => g (f a)) l init := by
  unfold negmaxFold
  rw [List.foldr_map]

theorem foldr_guard {α : Type} (g : α → Int) (c : α → Prop) [DecidablePred c]
    (l : List α) (init : Int) :
    l.foldr (fun i acc => if c i then max (g i) acc else acc) init =
      negmaxFold g (l.filter (fun i => decide (c i))) init := by
  induction l with
  | nil => rfl
  | cons a l ih =>
    rw [List.foldr_cons, List.filter_cons]
    by_cases hc : c a
    · rw [if_pos hc, if_pos (by simp [hc] : decide (c a) = true),
        negmaxFold_cons, ih]
    · rw [if_neg hc, if_neg (by simp [hc] : ¬ decide (c a) = true), ih]

theorem spec_terminal (f : Nat) (b : Board) (h : isTerminal b) :
    solve_spec f b = PREV := by
  match f with
  | 0 => rw [solve_spec, if_pos h]
  | f + 1 => rw [solve_spec, if_pos h]

theorem spec_succ (f : Nat) (b : Board) (h : ¬ isTerminal b) :
    solve_spec (f + 1) b =
      negmaxFold (fun i => -(solve_spec f (bump i b)))
        ((List.range 12).filter (fun i => decide (b.getD i 0 < 3))) PREV := by
  rw [solve_spec, if_neg h, foldr_guard]

theorem spec_succ_moves (f : Nat) (b : Board) (h : ¬ isTerminal b) :
    solve_spec (f + 1) b =
      negmaxFold (fun m => -(solve_spec f m)) (game_moves b) PREV := by
  rw [spec_succ f b h, moves_nonterminal b h, negmaxFold_map]

theorem spec_range (f : Nat) (b : Board) :
    solve_spec f b = PREV ∨ solve_spec f b = UNKNOWN ∨
      solve_spec f b = NEXT := by
  induction f generalizing b with
  | zero =>
    rw [solve_spec]
    split
    · exact Or.inl rfl
    · exact Or.inr (Or.inl rfl)
  | succ f ih =>
    by_cases h : isTerminal b
    · rw [spec_terminal _ _ h]
      exact Or.inl rfl
    · rw [spec_succ f b h]
      rcases negmaxFold_cases (fun i => -(solve_spec f (bump i b)))
          ((List.range 12).filter (fun i => decide (b.getD i 0 < 3))) PREV with
        hc | ⟨m, -, hc⟩
      · rw [hc]
        exact Or.inl rfl
      · rw [hc]
        rcases ih (bump m b) with h2 | h2 | h2 <;> rw [h2] <;> unfold PREV UNKNOWN NEXT <;> omega

theorem spec_resolved : ∀ (f : Nat) (b : Board), Valid b →
    36 - cellSum b ≤ f → solve_spec f b ≠ UNKNOWN := by
  intro f
  induction f with
  | zero =>
    intro b hb hf
    have hterm : isTerminal b :=
      terminal_of_sum36 b hb (by have := cellSum_le b hb; omega)
    rw [spec_terminal 0 b hterm]
    decide
  | succ f ih =>
    intro b hb hf
    by_cases hterm : isTerminal b
    · rw [spec_terminal _ _ hterm]
      decide
    · rw [spec_succ f b hterm]
      rcases negmaxFold_cases (fun i => -(solve_spec f (bump i b)))
          ((List.range 12).filter (fun i => decide (b.getD i 0 < 3))) PREV with
        hc | ⟨i, hi, hc⟩
      · rw [hc]
        decide
      · rw [hc]
        simp only [List.mem_filter, List.mem_range, decide_eq_true_eq] at hi
        have hchild : solve_spec f (bump i b) ≠ UNKNOWN := by
          apply ih (bump i b) (bump_valid b i hb hi.1 hi.2)
          have hsum : cellSum (bump i b) = cellSum b + 1 :=
            bump_sum b i (by rw [hb.1]; exact hi.1)
          omega
        intro hcon
        apply hchild
        unfold UNKNOWN at hcon ⊢
        omega

theorem spec_clamp : ∀ (f : Nat) (b : Board), Valid b →
    36 - cellSum b ≤ f → solve_spec f b = solve_spec (36 - cellSum b) b := by
  intro f
  induction f with
  | zero =>
    intro b hb hf
    rw [show 36 - cellSum b = 0 by omega]
  | succ f ih =>
    intro b hb hf
    by_cases hterm : isTerminal b
    · rw [spec_terminal _ _ hterm, spec_terminal _ _ hterm]
    · have hlt : cellSum b < 36 := by
        have h36 := cellSum_le b hb
        rcases Nat.lt_or_ge (cellSum b) 36 with h | h
        · exact h
        · exact absurd (terminal_of_sum36 b hb (by omega)) hterm
      obtain ⟨k, hk⟩ : ∃ k, 36 - cellSum b = k + 1 :=
        ⟨36 - cellSum b - 1, by omega⟩
      rw [hk, spec_succ f b hterm, spec_succ k b hterm]
      apply negmaxFold_congr
      intro i hi
      simp only [List.mem_filter, List.mem_range, decide_eq_true_eq] at hi
      have hcv : Valid (bump i b) := bump_valid b i hb hi.1 hi.2
      have hcs : cellSum (bump i b) = cellSum b + 1 :=
        bump_sum b i (by rw [hb.1]; exact hi.1)
      have h1 : solve_spec f (bump i b) =
          solve_spec (36 - cellSum (bump i b)) (bump i b) :=
        ih (bump i b) hcv (by omega)
      have h2 : solve_spec k (bump i b) =
          solve_spec (36 - cellSum (bump i b)) (bump i b) := by
        rw [show k = 36 - cellSum (bump i b) by omega]
      rw [h1, h2]

theorem trueVal_eq_spec (f : Nat) (b : Board) (hb : Valid b)
    (hf : 36 - cellSum b ≤ f) : solve_spec f b = trueVal b := by
  unfold trueVal
  rw [spec_clamp f b hb hf, spec_clamp 36 b hb (by omega)]

theorem trueVal_terminal (b : Board) (h : isTerminal b) : trueVal b = PREV :=
  spec_terminal 36 b h

theorem trueVal_resolved (b : Board) (hb : Valid b) : trueVal b ≠ UNKNOWN :=
  spec_resolved 36 b hb (by omega)

theorem trueVal_range (b : Board) :
    trueVal b = PREV ∨ trueVal b = UNKNOWN ∨ trueVal b = NEXT :=
  spec_range 36 b

theorem trueVal_unfold (b : Board) (hb : Valid b) (h : ¬ isTerminal b) :
    trueVal b = negmaxFold (fun m => -(trueVal m)) (game_moves b) PREV := by
  have h36 : trueVal b = solve_spec (35 + 1) b := rfl
  rw [h36, spec_succ_moves 35 b h]
  apply negmaxFold_congr
  intro m hm
  obtain ⟨hsum, hv⟩ := moves_sum_valid hb hm
  rw [trueVal_eq_spec 35 m hv (by omega)]

theorem lines_mem_lt : ∀ t ∈ LINES, t.1 < 12 ∧ t.2.1 < 12 ∧ t.2.2 < 12 := by
  decide

theorem lines_closed : ∀ T ∈ INDICES, ∀ t ∈ LINES,
    ∃ t' ∈ LINES, mapTriple T t ∈ tripleSet t' := by
  decide

theorem lines_closed' : ∀ T ∈ INDICES, ∀ t ∈ LINES,
    ∃ t' ∈ LINES, mapTriple T t' ∈ tripleSet t := by
  decide

theorem lineHit_congr_tripleSet (b : Board) {t t' : Nat × Nat × Nat}
    (h : t ∈ tripleSet t') : lineHit b t ↔ lineHit b t' := by
  simp only [tripleSet, List.mem_cons, List.not_mem_nil, or_false] at h
  unfold lineHit
  rcases h with rfl | rfl | rfl | rfl | rfl | rfl <;>
    (dsimp only; exact ⟨fun ⟨h1, h2, h3⟩ => by omega,
      fun ⟨h1, h2, h3⟩ => by omega⟩)

theorem lineHit_applyPerm (T : List Nat) (hT : T ∈ INDICES) (b : Board)
    (t : Nat × Nat × Nat) (ht : t ∈ LINES) :
    lineHit (applyPerm T b) t ↔ lineHit b (mapTriple T t) := by
  obtain ⟨h1, h2, h3⟩ := lines_mem_lt t ht
  have hlen := perm_len T hT
  unfold lineHit mapTriple applyPerm
  rw [getD_map_lt _ T _ (by omega), getD_map_lt _ T _ (by omega),
    getD_map_lt _ T _ (by omega)]

theorem terminal_applyPerm (T : List Nat) (hT : T ∈ INDICES) (b : Board) :
    isTerminal (applyPerm T b) ↔ isTerminal b := by
  constructor
  · rintro ⟨t, ht, hl⟩
    obtain ⟨t', ht', hts⟩ := lines_closed T hT t ht
    exact ⟨t', ht',
      (lineHit_congr_tripleSet b hts).1 ((lineHit_applyPerm T hT b t ht).1 hl)⟩
  · rintro ⟨t, ht, hl⟩
    obtain ⟨t', ht', hts⟩ := lines_closed' T hT t ht
    exact ⟨t', ht',
      (lineHit_applyPerm T hT b t' ht').2
        ((lineHit_congr_tripleSet b hts).2 hl)⟩

theorem perm_inj : ∀ T ∈ INDICES, ∀ i, i < 12 → ∀ e, e < 12 →
    T.getD i 0 = T.getD e 0 → i = e := by decide

theorem perm_entry_lt (T : List Nat) (hT : T ∈ INDICES) (i : Nat)
    (hi : i < 12) : T.getD i 0 < 12 := by
  apply perm_mem_lt T hT
  rw [List.getD_eq_getElem?_getD,
    List.getElem?_eq_getElem (by rw [perm_len T hT]; exact hi),
    Option.getD_some]
  exact List.getElem_mem _

theorem perm_map_range : ∀ T ∈ INDICES,
    (List.range 12).map (fun i => T.getD i 0) = T := by decide

theorem perm_perm_range : ∀ T ∈ INDICES, T.Perm (List.range 12) := by decide

theorem getD_applyPerm (T : List Nat) (b : Board) (e : Nat)
    (he : e < T.length) :
    (applyPerm T b).getD e 0 = b.getD (T.getD e 0) 0 :=
  getD_map_lt (fun i => b.getD i 0) T e he

theorem bump_applyPerm (T : List Nat) (hT : T ∈ INDICES) (b : Board)
    (hb : b.length = 12) (i : Nat) (hi : i < 12) :
    bump i (applyPerm T b) = applyPerm T (bump (T.getD i 0) b) := by
  have hlen := perm_len T hT
  apply List.ext_getElem
  · rw [bump_length, applyPerm_length, applyPerm_length]
  · intro e h1 h2
    have he : e < 12 := by
      rw [bump_length, applyPerm_length, hlen] at h1
      exact h1
    have heT : e < T.length := by omega
    have hTelt : T.getD e 0 < b.length := by
      rw [hb]
      exact perm_entry_lt T hT e he
    rw [← getD_eq_getElem_of_lt _ e h1, ← getD_eq_getElem_of_lt _ e h2,
      bump_getD i e (applyPerm T b) (by rw [applyPerm_length]; omega),
      getD_applyPerm T b e heT, getD_applyPerm T (bump (T.getD i 0) b) e heT,
      bump_getD (T.getD i 0) (T.getD e 0) b hTelt]
    by_cases hie : i = e
    · rw [if_pos hie, if_pos (by rw [hie])]
    · rw [if_neg hie,
        if_neg (fun hcon => hie (perm_inj T hT i hi e he hcon))]

theorem map_filter_comp (f : Nat → Nat) (p : Nat → Bool) (l : List Nat) :
    (l.filter (fun i => p (f i))).map f = (l.map f).filter p := by
  induction l with
  | nil => rfl
  | cons a l ih =>
    rw [List.map_cons, List.filter_cons, List.filter_cons]
    by_cases h : p (f a) = true
    · rw [if_pos h, if_pos h, List.map_cons, ih]
    · rw [if_neg h, if_neg h, ih]

theorem spec_symm : ∀ (f : Nat) (T : List Nat), T ∈ INDICES → ∀ (b : Board),
    Valid b → solve_spec f (applyPerm T b) = solve_spec f b := by
  intro f
  induction f with
  | zero =>
    intro T hT b hb
    simp only [solve_spec]
    simp only [terminal_applyPerm T hT b]
  | succ f ih =>
    intro T hT b hb
    by_cases hterm : isTerminal b
    · rw [spec_terminal _ _ ((terminal_applyPerm T hT b).2 hterm),
        spec_terminal _ _ hterm]
    · have hterm' : ¬ isTerminal (applyPerm T b) := fun h =>
        hterm ((terminal_applyPerm T hT b).1 h)
      rw [spec_succ f _ hterm', spec_succ f b hterm]
      have hfc : (List.range 12).filter
            (fun i => decide ((applyPerm T b).getD i 0 < 3)) =
          (List.range 12).filter
            (fun i => decide (b.getD (T.getD i 0) 0 < 3)) := by
        apply List.filter_congr
        intro i hi
        rw [List.mem_range] at hi
        rw [getD_applyPerm T b i (by rw [perm_len T hT]; exact hi)]
      rw [hfc]
      have hstep : negmaxFold
            (fun i => -(solve_spec f (bump i (applyPerm T b))))
            ((List.range 12).filter
              (fun i => decide (b.getD (T.getD i 0) 0 < 3))) PREV =
          negmaxFold (fun i => -(solve_spec f (bump (T.getD i 0) b)))
            ((List.range 12).filter
              (fun i => decide (b.getD (T.getD i 0) 0 < 3))) PREV := by
        apply negmaxFold_congr
        intro i hi
        simp only [List.mem_filter, List.mem_range, decide_eq_true_eq] at hi
        rw [bump_applyPerm T hT b hb.1 i hi.1,
          ih T hT (bump (T.getD i 0) b)
            (bump_valid b _ hb (perm_entry_lt T hT i hi.1) hi.2)]
      rw [hstep, ← negmaxFold_map (fun j => -(solve_spec f (bump j b)))
          (fun i => T.getD i 0),
        map_filter_comp (fun i => T.getD i 0)
          (fun j => decide (b.getD j 0 < 3)) (List.range 12),
        perm_map_range T hT]
      exact negmaxFold_perm _ ((perm_perm_range T hT).filter _) PREV

theorem trueVal_symm (T : List Nat) (hT : T ∈ INDICES) (b : Board)
    (hb : Valid b) : trueVal (applyPerm T b) = trueVal b :=
  spec_symm 36 T hT b hb

theorem goodCache_insert (c : Cache) (b : Board) (hb : Valid b) (v : Int)
    (hgc : goodCache c) (hval : trueVal b = v)
    (hrange : v = PREV ∨ v = NEXT) : goodCache ((game_hash b, v) :: c) := by
  intro h w hmem
  rcases List.mem_cons.1 hmem with heq | hmem2
  · have h1 : h = game_hash b := congrArg Prod.fst heq
    have h2 : w = v := congrArg Prod.snd heq
    constructor
    · rw [h2]
      exact hrange
    · intro b' hb' hh
      rw [h2]
      obtain ⟨T, hT, hb2⟩ := hash_collision_symmetric_core b b' hb hb'
        ((hh.trans h1).symm)
      rw [hb2, trueVal_symm T hT b hb]
      exact hval
  · exact hgc h w hmem2

theorem gv_value_range (d : Nat) (hgv : GVP d) (m : Board) (c : Cache)
    (hm : Valid m) (hgc : goodCache c) :
    (game_value m d c).1 = PREV ∨ (game_value m d c).1 = UNKNOWN ∨
      (game_value m d c).1 = NEXT := by
  by_cases h : (game_value m d c).1 = UNKNOWN
  · exact Or.inr (Or.inl h)
  · rw [(hgv m c hm hgc).2 h]
    exact trueVal_range m

theorem game_loop_cons (f : Board → Cache → Int × Cache) (m : Board)
    (ms : List Board) (value : Int) (cache : Cache) :
    game_loop f (m :: ms) value cache =
      if max value (-(f m cache).1) = NEXT
      then (max value (-(f m cache).1), (f m cache).2)
      else game_loop f ms (max value (-(f m cache).1)) (f m cache).2 := rfl

theorem loop_good (d : Nat) (hgv : GVP d) :
    ∀ (ms : List Board) (value : Int) (c : Cache),
      goodCache c → (∀ m ∈ ms, Valid m) →
      (value = PREV ∨ value = UNKNOWN ∨ value = NEXT) →
      goodCache (game_loop (fun m c => game_value m d c) ms value c).2 ∧
      ((game_loop (fun m c => game_value m d c) ms value c).1 = PREV ∨
        (game_loop (fun m c => game_value m d c) ms value c).1 = UNKNOWN ∨
        (game_loop (fun m c => game_value m d c) ms value c).1 = NEXT) ∧
      ((game_loop (fun m c => game_value m d c) ms value c).1 ≠ UNKNOWN →
        (game_loop (fun m c => game_value m d c) ms value c).1 =
          negmaxFold (fun m => -(trueVal m)) ms value) := by
  intro ms
  induction ms with
  | nil =>
    intro value c hgc hval hrange
    exact ⟨hgc, hrange, fun _ => rfl⟩
  | cons m ms ih =>
    intro value c hgc hval hrange
    have hmv : Valid m := hval m (by simp)
    have hms : ∀ x ∈ ms, Valid x := fun x hx => hval x (by simp [hx])
    obtain ⟨hgood, hres⟩ := hgv m c hmv hgc
    have hrange' : value = -1 ∨ value = 0 ∨ value = 1 := hrange
    have hprange : (game_value m d c).1 = -1 ∨ (game_value m d c).1 = 0 ∨
        (game_value m d c).1 = 1 := gv_value_range d hgv m c hmv hgc
    have htv : trueVal m = -1 ∨ trueVal m = 0 ∨ trueVal m = 1 :=
      trueVal_range m
    have htvx : ∀ x : Board, trueVal x = -1 ∨ trueVal x = 0 ∨ trueVal x = 1 :=
      fun x => trueVal_range x
    have hub : negmaxFold (fun m => -(trueVal m)) ms value ≤ 1 := by
      apply negmaxFold_le _ _ _ 1 (by omega)
      intro x hx
      have := htvx x
      omega
    rw [game_loop_cons]
    by_cases hbreak : max value (-(game_value m d c).1) = NEXT
    · rw [if_pos hbreak]
      have hbreak' : max value (-(game_value m d c).1) = 1 := hbreak
      refine ⟨hgood, Or.inr (Or.inr hbreak), fun _ => ?_⟩
      show max value (-(game_value m d c).1) =
        negmaxFold (fun m => -(trueVal m)) (m :: ms) value
      rw [negmaxFold_cons]
      have hcase : value = 1 ∨ -(game_value m d c).1 = 1 := by omega
      rcases hcase with hc | hc
      · have hge : value ≤ negmaxFold (fun m => -(trueVal m)) ms value :=
          negmaxFold_ge_init _ _ _
        have := htvx m
        omega
      · have hne : (game_value m d c).1 ≠ UNKNOWN := by
          show (game_value m d c).1 ≠ 0
          omega
        have heq : -(trueVal m) = 1 := by
          rw [← hres hne]
          exact hc
        rw [heq]
        omega
    · rw [if_neg hbreak]
      have hbreak' : ¬ max value (-(game_value m d c).1) = 1 := hbreak
      have hvrange : max value (-(game_value m d c).1) = PREV ∨
          max value (-(game_value m d c).1) = UNKNOWN ∨
          max value (-(game_value m d c).1) = NEXT := by
        show max value (-(game_value m d c).1) = -1 ∨
          max value (-(game_value m d c).1) = 0 ∨
          max value (-(game_value m d c).1) = 1
        omega
      obtain ⟨hg2, hr2, hf2⟩ := ih (max value (-(game_value m d c).1))
        (game_value m d c).2 hgood hms hvrange
      refine ⟨hg2, hr2, fun hne => ?_⟩
      have hfold := hf2 hne
      rw [negmaxFold_cons]
      by_cases hpu : (game_value m d c).1 = UNKNOWN
      · have hpu' : (game_value m d c).1 = 0 := hpu
        have hr2' : (game_loop (fun m c => game_value m d c) ms
            (max value (-(game_value m d c).1)) (game_value m d c).2).1 = -1 ∨
            (game_loop (fun m c => game_value m d c) ms
            (max value (-(game_value m d c).1)) (game_value m d c).2).1 = 0 ∨
            (game_loop (fun m c => game_value m d c) ms
            (max value (-(game_value m d c).1)) (game_value m d c).2).1 = 1 :=
          hr2
        have hne' : (game_loop (fun m c => game_value m d c) ms
            (max value (-(game_value m d c).1)) (game_value m d c).2).1 ≠ 0 :=
          hne
        have hge1 : max value (-(game_value m d c).1) ≤
            (game_loop (fun m c => game_value m d c) ms
              (max value (-(game_value m d c).1)) (game_value m d c).2).1 := by
          rw [hfold]
          exact negmaxFold_ge_init _ _ _
        have hr1 : (game_loop (fun m c => game_value m d c) ms
            (max value (-(game_value m d c).1)) (game_value m d c).2).1 = 1 := by
          omega
        rw [hr1]
        have hlow : (1 : Int) ≤ max (-(trueVal m))
            (negmaxFold (fun m => -(trueVal m)) ms value) := by
          rcases negmaxFold_cases (fun m => -(trueVal m)) ms
              (max value (-(game_value m d c).1)) with hcs | ⟨x, hx, hcs⟩
          · rw [hfold, hcs] at hr1
            exact absurd hr1 hbreak'
          · have hx1 : -(trueVal x) = 1 := by
              rw [← hcs, ← hfold]
              exact hr1
            have hgex : -(trueVal x) ≤
                negmaxFold (fun m => -(trueVal m)) ms value :=
              negmaxFold_ge_mem _ hx _
            rw [hx1] at hgex
            exact le_trans hgex (le_max_right _ _)
        have hm' := htvx m
        have hmax := max_choice (-(trueVal m))
          (negmaxFold (fun m => -(trueVal m)) ms value)
        omega
      · have heqm : -(game_value m d c).1 = -(trueVal m) := by
          rw [hres hpu]
        rw [hfold, heqm, max_comm value (-(trueVal m)), negmaxFold_init_max]

theorem gv_hit (b : Board) (d : Nat) (c : Cache) (v : Int)
    (h : c.lookup (game_hash b) = some v) : game_value b d c = (v, c) := by
  unfold game_value
  rw [h]

theorem gv_miss_terminal (b : Board) (d : Nat) (c : Cache)
    (h1 : c.lookup (game_hash b) = none) (h2 : game_moves b = []) :
    game_value b d c = (PREV, (game_hash b, PREV) :: c) := by
  unfold game_value
  rw [h1]
  simp only [h2]
  rw [if_pos trivial]

theorem gv_miss_depth0 (b : Board) (c : Cache)
    (h1 : c.lookup (game_hash b) = none) (h2 : game_moves b ≠ []) :
    game_value b 0 c = (UNKNOWN, c) := by
  unfold game_value
  rw [h1]
  simp only [if_neg h2]

theorem gv_miss_succ (b : Board) (d : Nat) (c : Cache)
    (h1 : c.lookup (game_hash b) = none) (h2 : game_moves b ≠ []) :
    game_value b (d + 1) c =
      if (game_loop (fun m c => game_value m d c) (game_moves b) PREV c).1 =
          UNKNOWN
      then game_loop (fun m c => game_value m d c) (game_moves b) PREV c
      else ((game_loop (fun m c => game_value m d c) (game_moves b) PREV c).1,
        (game_hash b,
          (game_loop (fun m c => game_value m d c) (game_moves b) PREV c).1) ::
          (game_loop (fun m c => game_value m d c) (game_moves b) PREV c).2) := by
  rw [game_value.eq_def]
  rw [h1]
  simp only [if_neg h2]

theorem gv_main : ∀ d, GVP d := by
  intro d
  induction d with
  | zero =>
    intro b c hb hgc
    rcases hl : c.lookup (game_hash b) with _ | v
    · by_cases hm : game_moves b = []
      · rw [gv_miss_terminal b 0 c hl hm]
        have hterm : isTerminal b := (moves_nil_iff b hb).1 hm
        exact ⟨goodCache_insert c b hb PREV hgc (trueVal_terminal b hterm)
            (Or.inl rfl),
          fun _ => (trueVal_terminal b hterm).symm⟩
      · rw [gv_miss_depth0 b c hl hm]
        exact ⟨hgc, fun hne => absurd rfl hne⟩
    · rw [gv_hit b 0 c v hl]
      obtain ⟨hr, hall⟩ := hgc _ _ (mem_of_lookup hl)
      exact ⟨hgc, fun _ => (hall b hb rfl).symm⟩
  | succ d ih =>
    intro b c hb hgc
    rcases hl : c.lookup (game_hash b) with _ | v
    · by_cases hm : game_moves b = []
      · rw [gv_miss_terminal b (d + 1) c hl hm]
        have hterm : isTerminal b := (moves_nil_iff b hb).1 hm
        exact ⟨goodCache_insert c b hb PREV hgc (trueVal_terminal b hterm)
            (Or.inl rfl),
          fun _ => (trueVal_terminal b hterm).symm⟩
      · rw [gv_miss_succ b d c hl hm]
        have hterm : ¬ isTerminal b := fun ht => hm ((moves_nil_iff b hb).2 ht)
        obtain ⟨hg2, hr2, hf2⟩ := loop_good d ih (game_moves b) PREV c hgc
          (fun m hm2 => (moves_sum_valid hb hm2).2) (Or.inl rfl)
        by_cases hu : (game_loop (fun m c => game_value m d c) (game_moves b)
            PREV c).1 = UNKNOWN
        · rw [if_pos hu]
          exact ⟨hg2, fun hne => absurd hu hne⟩
        · rw [if_neg hu]
          have hval : (game_loop (fun m c => game_value m d c) (game_moves b)
              PREV c).1 = trueVal b := by
            rw [hf2 hu]
            exact (trueVal_unfold b hb hterm).symm
          have hrange2 : (game_loop (fun m c => game_value m d c)
              (game_moves b) PREV c).1 = PREV ∨
              (game_loop (fun m c => game_value m d c) (game_moves b) PREV
                c).1 = NEXT := by
            rcases hr2 with h | h | h
            · exact Or.inl h
            · exact absurd h hu
            · exact Or.inr h
          exact ⟨goodCache_insert _ b hb _ hg2 hval.symm hrange2,
            fun _ => hval⟩
    · rw [gv_hit b (d + 1) c v hl]
      obtain ⟨hr, hall⟩ := hgc _ _ (mem_of_lookup hl)
      exact ⟨hgc, fun _ => (hall b hb rfl).symm⟩

theorem goodCache_nil : goodCache ([] : Cache) := by
  intro h v hm
  simp at hm

theorem populated_good (d : Nat) : ∀ c, PopulatedAt d c → goodCache c := by
  intro c hp
  induction hp with
  | empty => exact goodCache_nil
  | step b c hb hc ih => exact (gv_main d b c hb ih).1

/-- C1: cache soundness across depth budgets: for valid `B`, budgets
`d1 ≤ d2`, and a cache `C` populated only by solver calls at budget `d1`
starting from the empty cache, a call at budget `d2` with cache `C`
never returns a non-`UNKNOWN` value different from the non-`UNKNOWN`
value of a from-scratch call at budget `d2` (both, when resolved, equal
the exact game value, which is budget-independent). -/
theorem cache_soundness (B : Board) (d1 d2 : Nat) (C : Cache)
    (hB : Valid B) (hd : d1 ≤ d2) (hC : PopulatedAt d1 C)
    (h1 : (game_value B d2 C).1 ≠ UNKNOWN)
    (h2 : (game_value B d2 []).1 ≠ UNKNOWN) :
    (game_value B d2 C).1 = (game_value B d2 []).1 := by
  have hgc := populated_good d1 C hC
  rw [(gv_main d2 B C hB hgc).2 h1, (gv_main d2 B [] hB goodCache_nil).2 h2]

theorem cache_soundness_witness :
    Valid [3,3,3,0,0,0,0,0,0,0,0,0] ∧ (0 : Nat) ≤ 0 ∧
    PopulatedAt 0 (game_value (List.replicate 12 3) 0 []).2 ∧
    (game_value [3,3,3,0,0,0,0,0,0,0,0,0] 0
      (game_value (List.replicate 12 3) 0 []).2).1 ≠ UNKNOWN ∧
    (game_value [3,3,3,0,0,0,0,0,0,0,0,0] 0 []).1 ≠ UNKNOWN ∧
    (game_value [3,3,3,0,0,0,0,0,0,0,0,0] 0
      (game_value (List.replicate 12 3) 0 []).2).1 =
      (game_value [3,3,3,0,0,0,0,0,0,0,0,0] 0 []).1 :=
  ⟨by decide, le_refl 0,
    PopulatedAt.step (List.replicate 12 3) [] (by decide) PopulatedAt.empty,
    by decide, by decide,
    cache_soundness [3,3,3,0,0,0,0,0,0,0,0,0] 0 0
      (game_value (List.replicate 12 3) 0 []).2 (by decide) (le_refl 0)
      (PopulatedAt.step (List.replicate 12 3) [] (by decide)
        PopulatedAt.empty)
      (by decide) (by decide)⟩

theorem loop_resolved (d : Nat) :
    ∀ (ms : List Board) (value : Int) (c : Cache), goodCache c →
      (∀ m ∈ ms, Valid m) →
      (∀ m ∈ ms, ∀ c', goodCache c' → (game_value m d c').1 ≠ UNKNOWN) →
      (value = -1 ∨ value = 1) →
      (game_loop (fun m c => game_value m d c) ms value c).1 ≠ UNKNOWN := by
  intro ms
  induction ms with
  | nil =>
    intro value c hgc hv hch hr
    show value ≠ 0
    omega
  | cons m ms ih =>
    intro value c hgc hv hch hr
    have hmv : Valid m := hv m (by simp)
    have hne : (game_value m d c).1 ≠ UNKNOWN := hch m (by simp) c hgc
    have hne' : (game_value m d c).1 ≠ 0 := hne
    have hprange : (game_value m d c).1 = -1 ∨ (game_value m d c).1 = 0 ∨
        (game_value m d c).1 = 1 :=
      gv_value_range d (gv_main d) m c hmv hgc
    have hgood : goodCache (game_value m d c).2 :=
      (gv_main d m c hmv hgc).1
    rw [game_loop_cons]
    by_cases hbreak : max value (-(game_value m d c).1) = NEXT
    · rw [if_pos hbreak]
      show max value (-(game_value m d c).1) ≠ 0
      omega
    · rw [if_neg hbreak]
      apply ih (max value (-(game_value m d c).1)) (game_value m d c).2 hgood
        (fun x hx => hv x (by simp [hx]))
        (fun x hx => hch x (by simp [hx]))
      omega

theorem gv_resolved : ∀ (d : Nat) (b : Board) (c : Cache), Valid b →
    goodCache c → 36 - cellSum b ≤ d →
    (game_value b d c).1 ≠ UNKNOWN := by
  intro d
  induction d with
  | zero =>
    intro b c hb hgc hd
    rcases hl : c.lookup (game_hash b) with _ | v
    · have hterm : isTerminal b :=
        terminal_of_sum36 b hb (by have := cellSum_le b hb; omega)
      rw [gv_miss_terminal b 0 c hl ((moves_nil_iff b hb).2 hterm)]
      show PREV ≠ 0
      decide
    · rw [gv_hit b 0 c v hl]
      obtain ⟨hr, -⟩ := hgc _ _ (mem_of_lookup hl)
      show v ≠ 0
      rcases hr with h | h <;> rw [h] <;> decide
  | succ d ih =>
    intro b c hb hgc hd
    rcases hl : c.lookup (game_hash b) with _ | v
    · by_cases hm : game_moves b = []
      · rw [gv_miss_terminal b (d + 1) c hl hm]
        show PREV ≠ 0
        decide
      · rw [gv_miss_succ b d c hl hm]
        have hloop : (game_loop (fun m c => game_value m d c) (game_moves b)
            PREV c).1 ≠ UNKNOWN := by
          apply loop_resolved d (game_moves b) PREV c hgc
            (fun m hm2 => (moves_sum_valid hb hm2).2)
          · intro m hm2 c' hgc'
            obtain ⟨hsum, hv⟩ := moves_sum_valid hb hm2
            exact ih m c' hv hgc' (by omega)
          · exact Or.inl rfl
        rw [if_neg hloop]
        exact hloop
    · rw [gv_hit b (d + 1) c v hl]
      obtain ⟨hr, -⟩ := hgc _ _ (mem_of_lookup hl)
      show v ≠ 0
      rcases hr with h | h <;> rw [h] <;> decide

/-- C6: exhaustive solve of the empty board: at depth budget 36 with an
empty cache, `game_value` on the all-zero board returns `PREV` or
`NEXT`, never `UNKNOWN`. -/
theorem empty_board_resolved :
    (game_value empty_board 36 []).1 = PREV ∨
      (game_value empty_board 36 []).1 = NEXT := by
  have hv : Valid empty_board := by decide
  have h1 := gv_resolved 36 empty_board [] hv goodCache_nil
    (by show 36 - cellSum empty_board ≤ 36; decide)
  have h2 := gv_value_range 36 (gv_main 36) empty_board [] hv goodCache_nil
  rcases h2 with h | h | h
  · exact Or.inl h
  · exact absurd h h1
  · exact Or.inr h

theorem game_loop_congr (f g : Board → Cache → Int × Cache) :
    ∀ (ms : List Board) (value : Int) (c : Cache),
      (∀ m ∈ ms, ∀ c', f m c' = g m c') →
      game_loop f ms value c = game_loop g ms value c := by
  intro ms
  induction ms with
  | nil => intro value c _; rfl
  | cons m ms ih =>
    intro value c hfg
    rw [game_loop_cons, game_loop_cons, hfg m (by simp) c]
    split
    · rfl
    · exact ih _ _ (fun x hx c' => hfg x (by simp [hx]) c')

theorem gv_depth_clamp : ∀ (d : Nat) (b : Board) (c : Cache) (d' : Nat),
    Valid b → 36 - cellSum b ≤ d → 36 - cellSum b ≤ d' →
    game_value b d c = game_value b d' c := by
  intro d
  induction d using Nat.strong_induction_on with
  | _ d ih =>
    intro b c d' hb h1 h2
    rcases hl : c.lookup (game_hash b) with _ | v
    · by_cases hm : game_moves b = []
      · rw [gv_miss_terminal b d c hl hm, gv_miss_terminal b d' c hl hm]
      · have hterm : ¬ isTerminal b := fun ht => hm ((moves_nil_iff b hb).2 ht)
        have hlt : cellSum b < 36 := by
          rcases Nat.lt_or_ge (cellSum b) 36 with h | h
          · exact h
          · exact absurd
              (terminal_of_sum36 b hb
                (by have := cellSum_le b hb; omega)) hterm
        obtain ⟨dd, rfl⟩ : ∃ dd, d = dd + 1 := ⟨d - 1, by omega⟩
        obtain ⟨dd', rfl⟩ : ∃ dd', d' = dd' + 1 := ⟨d' - 1, by omega⟩
        rw [gv_miss_succ b dd c hl hm, gv_miss_succ b dd' c hl hm]
        have hloop : game_loop (fun m c => game_value m dd c) (game_moves b)
            PREV c =
            game_loop (fun m c => game_value m dd' c) (game_moves b) PREV c := by
          apply game_loop_congr
          intro m hm2 c'
          obtain ⟨hsum, hv⟩ := moves_sum_valid hb hm2
          exact ih dd (by omega) m c' dd' hv (by omega) (by omega)
        rw [hloop]
    · rw [gv_hit b d c v hl, gv_hit b d' c v hl]

/-- C7: termination structure of the solver: every successor move
raises the cell sum by exactly one, the cell sum of a valid board never
exceeds 36, and the solver's result at any depth budget (however large,
e.g. `INFINITY = 3^12`) coincides with its result at the clamped budget
`min d (36 - cellSum b)` — the recursion never needs more than
`36 - cellSum b` plies. -/
theorem solver_depth_bounded (b : Board) (d : Nat) (c : Cache)
    (hb : Valid b) :
    (∀ m ∈ game_moves b, cellSum m = cellSum b + 1) ∧
    cellSum b ≤ 36 ∧
    game_value b d c = game_value b (min d (36 - cellSum b)) c := by
  refine ⟨fun m hm => (moves_sum_valid hb hm).1, cellSum_le b hb, ?_⟩
  rcases le_or_lt (36 - cellSum b) d with h | h
  · rw [min_eq_right h]
    exact gv_depth_clamp d b c (36 - cellSum b) hb h (le_refl _)
  · rw [min_eq_left (by omega)]

theorem solver_depth_bounded_witness :
    Valid empty_board ∧
    ((∀ m ∈ game_moves empty_board, cellSum m = cellSum empty_board + 1) ∧
    cellSum empty_board ≤ 36 ∧
    game_value empty_board INFINITY [] =
      game_value empty_board (min INFINITY (36 - cellSum empty_board)) []) :=
  ⟨by decide, solver_depth_bounded empty_board INFINITY [] (by decide)⟩

theorem cacheRange_insert (c : Cache) (h : Nat) (v : Int) (hc : cacheRange c)
    (hv : v = PREV ∨ v = NEXT) : cacheRange ((h, v) :: c) := by
  intro h' v' hm
  rcases List.mem_cons.1 hm with heq | hm2
  · have : v' = v := congrArg Prod.snd heq
    rw [this]
    exact hv
  · exact hc h' v' hm2

theorem loop_range_cr (d : Nat)
    (hgvr : ∀ (b : Board) (c : Cache), cacheRange c →
      ((game_value b d c).1 = PREV ∨ (game_value b d c).1 = UNKNOWN ∨
        (game_value b d c).1 = NEXT) ∧ cacheRange (game_value b d c).2) :
    ∀ (ms : List Board) (value : Int) (c : Cache), cacheRange c →
      (value = PREV ∨ value = UNKNOWN ∨ value = NEXT) →
      ((game_loop (fun m c => game_value m d c) ms value c).1 = PREV ∨
        (game_loop (fun m c => game_value m d c) ms value c).1 = UNKNOWN ∨
        (game_loop (fun m c => game_value m d c) ms value c).1 = NEXT) ∧
      cacheRange (game_loop (fun m c => game_value m d c) ms value c).2 := by
  intro ms
  induction ms with
  | nil => exact fun value c hc hr => ⟨hr, hc⟩
  | cons m ms ih =>
    intro value c hc hr
    obtain ⟨hpr, hpc⟩ := hgvr m c hc
    have hpr' : (game_value m d c).1 = -1 ∨ (game_value m d c).1 = 0 ∨
        (game_value m d c).1 = 1 := hpr
    have hr' : value = -1 ∨ value = 0 ∨ value = 1 := hr
    rw [game_loop_cons]
    by_cases hbreak : max value (-(game_value m d c).1) = NEXT
    · rw [if_pos hbreak]
      exact ⟨Or.inr (Or.inr hbreak), hpc⟩
    · rw [if_neg hbreak]
      apply ih _ _ hpc
      show max value (-(game_value m d c).1) = -1 ∨
        max value (-(game_value m d c).1) = 0 ∨
        max value (-(game_value m d c).1) = 1
      omega

theorem gv_range_cr : ∀ (d : Nat) (b : Board) (c : Cache), cacheRange c →
    ((game_value b d c).1 = PREV ∨ (game_value b d c).1 = UNKNOWN ∨
      (game_value b d c).1 = NEXT) ∧ cacheRange (game_value b d c).2 := by
  intro d
  induction d with
  | zero =>
    intro b c hc
    rcases hl : c.lookup (game_hash b) with _ | v
    · by_cases hm : game_moves b = []
      · rw [gv_miss_terminal b 0 c hl hm]
        exact ⟨Or.inl rfl, cacheRange_insert c _ PREV hc (Or.inl rfl)⟩
      · rw [gv_miss_depth0 b c hl hm]
        exact ⟨Or.inr (Or.inl rfl), hc⟩
    · rw [gv_hit b 0 c v hl]
      rcases hc _ _ (mem_of_lookup hl) with h | h
      · exact ⟨Or.inl h, hc⟩
      · exact ⟨Or.inr (Or.inr h), hc⟩
  | succ d ih =>
    intro b c hc
    rcases hl : c.lookup (game_hash b) with _ | v
    · by_cases hm : game_moves b = []
      · rw [gv_miss_terminal b (d + 1) c hl hm]
        exact ⟨Or.inl rfl, cacheRange_insert c _ PREV hc (Or.inl rfl)⟩
      · rw [gv_miss_succ b d c hl hm]
        obtain ⟨hlr, hlc⟩ := loop_range_cr d ih (game_moves b) PREV c hc
          (Or.inl rfl)
        by_cases hu : (game_loop (fun m c => game_value m d c) (game_moves b)
            PREV c).1 = UNKNOWN
        · rw [if_pos hu]
          exact ⟨Or.inr (Or.inl hu), hlc⟩
        · rw [if_neg hu]
          have hval : (game_loop (fun m c => game_value m d c) (game_moves b)
              PREV c).1 = PREV ∨
              (game_loop (fun m c => game_value m d c) (game_moves b) PREV
                c).1 = NEXT := by
            rcases hlr with h | h | h
            · exact Or.inl h
            · exact absurd h hu
            · exact Or.inr h
          refine ⟨?_, cacheRange_insert _ _ _ hlc hval⟩
          rcases hval with h | h
          · exact Or.inl h
          · exact Or.inr (Or.inr h)
    · rw [gv_hit b (d + 1) c v hl]
      rcases hc _ _ (mem_of_lookup hl) with h | h
      · exact ⟨Or.inl h, hc⟩
      · exact ⟨Or.inr (Or.inr h), hc⟩

theorem move_classify_cons (d : Nat) (x : Board) (ms : List Board)
    (c : Cache) :
    move_classify d (x :: ms) c =
      if (game_value x d c).1 = PREV then
        ((x, (game_value x d c).1) ::
            (move_classify d ms (game_value x d c).2).1,
          x :: (move_classify d ms (game_value x d c).2).2.1,
          (move_classify d ms (game_value x d c).2).2.2.1,
          (move_classify d ms (game_value x d c).2).2.2.2.1,
          (move_classify d ms (game_value x d c).2).2.2.2.2)
      else if (game_value x d c).1 = NEXT then
        ((x, (game_value x d c).1) ::
            (move_classify d ms (game_value x d c).2).1,
          (move_classify d ms (game_value x d c).2).2.1,
          (move_classify d ms (game_value x d c).2).2.2.1,
          x :: (move_classify d ms (game_value x d c).2).2.2.2.1,
          (move_classify d ms (game_value x d c).2).2.2.2.2)
      else
        ((x, (game_value x d c).1) ::
            (move_classify d ms (game_value x d c).2).1,
          (move_classify d ms (game_value x d c).2).2.1,
          x :: (move_classify d ms (game_value x d c).2).2.2.1,
          (move_classify d ms (game_value x d c).2).2.2.2.1,
          (move_classify d ms (game_value x d c).2).2.2.2.2) := rfl

theorem move_classify_buckets (d : Nat) :
    ∀ (ms : List Board) (c : Cache), cacheRange c → ∀ m : Board,
      (m ∈ (move_classify d ms c).2.1 ↔
        (m, PREV) ∈ (move_classify d ms c).1) ∧
      (m ∈ (move_classify d ms c).2.2.2.1 ↔
        (m, NEXT) ∈ (move_classify d ms c).1) ∧
      (m ∈ (move_classify d ms c).2.2.1 ↔
        (m, UNKNOWN) ∈ (move_classify d ms c).1) ∧
      (m ∈ ms → m ∈ (move_classify d ms c).2.1 ∨
        m ∈ (move_classify d ms c).2.2.1 ∨
        m ∈ (move_classify d ms c).2.2.2.1) := by
  intro ms
  induction ms with
  | nil =>
    intro c hc m
    refine ⟨?_, ?_, ?_, ?_⟩ <;> simp [move_classify]
  | cons x ms ih =>
    intro c hc m
    obtain ⟨hrange, hcr2⟩ := gv_range_cr d x c hc
    obtain ⟨i1, i2, i3, i4⟩ := ih (game_value x d c).2 hcr2 m
    rcases hrange with hp | hp | hp
    · rw [move_classify_cons, if_pos hp]
      simp only [List.mem_cons, Prod.mk.injEq]
      refine ⟨?_, ?_, ?_, ?_⟩
      · constructor
        · rintro (rfl | hm)
          · exact Or.inl ⟨rfl, hp.symm⟩
          · exact Or.inr (i1.1 hm)
        · rintro (⟨rfl, -⟩ | hm)
          · exact Or.inl rfl
          · exact Or.inr (i1.2 hm)
      · constructor
        · intro hm
          exact Or.inr (i2.1 hm)
        · rintro (⟨-, hcon⟩ | hm)
          · rw [hp] at hcon
            exact absurd hcon (by decide)
          · exact i2.2 hm
      · constructor
        · intro hm
          exact Or.inr (i3.1 hm)
        · rintro (⟨-, hcon⟩ | hm)
          · rw [hp] at hcon
            exact absurd hcon (by decide)
          · exact i3.2 hm
      · rintro (rfl | hm)
        · exact Or.inl (Or.inl rfl)
        · rcases i4 hm with h | h | h
          · exact Or.inl (Or.inr h)
          · exact Or.inr (Or.inl h)
          · exact Or.inr (Or.inr h)
    · rw [move_classify_cons, if_neg (by rw [hp]; decide),
        if_neg (by rw [hp]; decide)]
      simp only [List.mem_cons, Prod.mk.injEq]
      refine ⟨?_, ?_, ?_, ?_⟩
      · constructor
        · intro hm
          exact Or.inr (i1.1 hm)
        · rintro (⟨-, hcon⟩ | hm)
          · rw [hp] at hcon
            exact absurd hcon (by decide)
          · exact i1.2 hm
      · constructor
        · intro hm
          exact Or.inr (i2.1 hm)
        · rintro (⟨-, hcon⟩ | hm)
          · rw [hp] at hcon
            exact absurd hcon (by decide)
          · exact i2.2 hm
      · constructor
        · rintro (rfl | hm)
          · exact Or.inl ⟨rfl, hp.symm⟩
          · exact Or.inr (i3.1 hm)
        · rintro (⟨rfl, -⟩ | hm)
          · exact Or.inl rfl
          · exact Or.inr (i3.2 hm)
      · rintro (rfl | hm)
        · exact Or.inr (Or.inl (Or.inl rfl))
        · rcases i4 hm with h | h | h
          · exact Or.inl h
          · exact Or.inr (Or.inl (Or.inr h))
          · exact Or.inr (Or.inr h)
    · rw [move_classify_cons, if_neg (by rw [hp]; decide), if_pos hp]
      simp only [List.mem_cons, Prod.mk.injEq]
      refine ⟨?_, ?_, ?_, ?_⟩
      · constructor
        · intro hm
          exact Or.inr (i1.1 hm)
        · rintro (⟨-, hcon⟩ | hm)
          · rw [hp] at hcon
            exact absurd hcon (by decide)
          · exact i1.2 hm
      · constructor
        · rintro (rfl | hm)
          · exact Or.inl ⟨rfl, hp.symm⟩
          · exact Or.inr (i2.1 hm)
        · rintro (⟨rfl, -⟩ | hm)
          · exact Or.inl rfl
          · exact Or.inr (i2.2 hm)
      · constructor
        · intro hm
          exact Or.inr (i3.1 hm)
        · rintro (⟨-, hcon⟩ | hm)
          · rw [hp] at hcon
            exact absurd hcon (by decide)
          · exact i3.2 hm
      · rintro (rfl | hm)
        · exact Or.inr (Or.inr (Or.inl rfl))
        · rcases i4 hm with h | h | h
          · exact Or.inl h
          · exact Or.inr (Or.inl h)
          · exact Or.inr (Or.inr (Or.inr h))

/-- C8: in the move selector, each successor of a non-terminal board is
placed in the Winning bucket exactly when its recorded solver value is
`PREV`, in the Losing bucket exactly when it is `NEXT`, and in the
Unknown bucket exactly when it is `UNKNOWN`; every successor lands in
one of the three buckets. -/
theorem move_classification (b : Board) (d : Nat) (c : Cache)
    (hterm : ¬ isTerminal b) (hcr : cacheRange c) :
    ∀ m ∈ game_moves b,
      (m ∈ (move_classify d (game_moves b) c).2.1 ↔
        (m, PREV) ∈ (move_classify d (game_moves b) c).1) ∧
      (m ∈ (move_classify d (game_moves b) c).2.2.2.1 ↔
        (m, NEXT) ∈ (move_classify d (game_moves b) c).1) ∧
      (m ∈ (move_classify d (game_moves b) c).2.2.1 ↔
        (m, UNKNOWN) ∈ (move_classify d (game_moves b) c).1) ∧
      (m ∈ (move_classify d (game_moves b) c).2.1 ∨
        m ∈ (move_classify d (game_moves b) c).2.2.1 ∨
        m ∈ (move_classify d (game_moves b) c).2.2.2.1) := by
  intro m hm
  obtain ⟨h1, h2, h3, h4⟩ := move_classify_buckets d (game_moves b) c hcr m
  exact ⟨h1, h2, h3, h4 hm⟩

theorem move_classification_witness :
    ¬ isTerminal empty_board ∧ cacheRange ([] : Cache) ∧
    ∀ m ∈ game_moves empty_board,
      (m ∈ (move_classify 0 (game_moves empty_board) []).2.1 ↔
        (m, PREV) ∈ (move_classify 0 (game_moves empty_board) []).1) ∧
      (m ∈ (move_classify 0 (game_moves empty_board) []).2.2.2.1 ↔
        (m, NEXT) ∈ (move_classify 0 (game_moves empty_board) []).1) ∧
      (m ∈ (move_classify 0 (game_moves empty_board) []).2.2.1 ↔
        (m, UNKNOWN) ∈ (move_classify 0 (game_moves empty_board) []).1) ∧
      (m ∈ (move_classify 0 (game_moves empty_board) []).2.1 ∨
        m ∈ (move_classify 0 (game_moves empty_board) []).2.2.1 ∨
        m ∈ (move_classify 0 (game_moves empty_board) []).2.2.2.1) :=
  ⟨by decide, fun h v hm => absurd hm (by simp),
    move_classification empty_board 0 [] (by decide)
      (fun h v hm => absurd hm (by simp))⟩
